import Mathlib

/-!
Formal model of the Timeline Synchronization & Assembly Engine of the
video-backend repository.

Time quantities are modelled as rationals (`ℚ`).  Python's `round(x, n)`
is modelled as rounding to the nearest multiple of `10⁻ⁿ` (Python uses
round-half-even on floats; the two differ only at exact ties, which none
of the statements below depend on).  Dictionary segments are modelled as
a structure with explicit optional fields; `seg.get(key, d)` becomes
`Option.getD`.
-/

namespace VideoBackend

/-- Python `round(x, 3)`: round to the nearest multiple of 1/1000. -/
def round3 (q : ℚ) : ℚ := (round (1000 * q) : ℤ) / 1000

/-- Rounding to the nearest multiple of 1/100 (the precision kept by the
`MM:SS` formatter `_seconds_to_timestamp`, which prints seconds with the
format `%05.2f`). -/
def round2 (q : ℚ) : ℚ := (round (100 * q) : ℤ) / 100

/-- A rational that is a whole number of milliseconds, i.e. a fixed point
of `round3`.  All timing fields the code itself stores have this form,
since the code rounds them with `round(x, 3)`. -/
def isMilli (q : ℚ) : Prop := round3 q = q

instance (q : ℚ) : Decidable (isMilli q) := by unfold isMilli; infer_instance

/-! ## Timestamp parsing

`_timestamp_to_seconds` (present identically in `pipeline_service.py` and
`video_service.py`, the latter adding an empty-string guard) splits the
string on `:` and then computes from the numeric parts:
one part `x` gives `x`; otherwise it returns
`int(parts[0]) * 60 + float(parts[1])`, ignoring any further parts.
The model takes the list of numeric components after splitting
(`int` only succeeds on integral components, so a well-formed timestamp
component is its numeric value). -/
def timestampToSeconds : List ℚ → ℚ
  | [] => 0
  | [x] => x
  | p0 :: p1 :: _ => p0 * 60 + p1

/-! ## Script segments

Model of the dynamically-shaped segment dictionaries.  Fields absent from
a freshly generated segment are `Option`s; `seg.get(k, 0) or 0` becomes
`Option.getD · 0`. -/
structure Segment where
  sid : ℕ
  timestamp : ℚ
  voiceoverText : String
  audio_duration : Option ℚ
  pause_duration : Option ℚ
  isDeleted : Bool
  narration_start : Option ℚ
  narration_end : Option ℚ
  start_time : Option ℚ
  end_time : Option ℚ
  seg_duration : Option ℚ
  audio_delta : Option ℚ
  timeline_shift : Option ℚ
  audio_url : Option String
  deriving DecidableEq, Repr

/-- `seg.get(key, 0) or 0` on an optional numeric field. -/
def optQ (o : Option ℚ) : ℚ := o.getD 0

/-- A fresh segment as produced by the script generator: only identity,
nominal timestamp, text and flags are set. -/
def mkSeg (i : ℕ) (ts : ℚ) (a p : ℚ) (del : Bool) : Segment :=
  { sid := i, timestamp := ts, voiceoverText := "", audio_duration := some a,
    pause_duration := some p, isDeleted := del, narration_start := none,
    narration_end := none, start_time := none, end_time := none,
    seg_duration := none, audio_delta := none, timeline_shift := none,
    audio_url := none }

/-! ## Narration timeline (`compute_narration_timeline`, `get_narration_duration`)

The pass walks the script list **in full order** (the source has no
`isDeleted` filter in this loop), keeping a cursor that starts at 0:
`narration_start = round(cursor, 3)`,
`narration_end = round(cursor + audio_duration + pause_duration, 3)`,
`cursor = narration_end`. -/
def computeNarrationGo (c : ℚ) : List Segment → List Segment
  | [] => []
  | seg :: rest =>
    let a := optQ seg.audio_duration
    let p := optQ seg.pause_duration
    let ns := round3 c
    let ne := round3 (c + a + p)
    { seg with narration_start := some ns, narration_end := some ne } ::
      computeNarrationGo ne rest

def computeNarrationTimeline (script : List Segment) : List Segment :=
  computeNarrationGo 0 script

/-- `get_narration_duration`: over the non-deleted segments, the maximum
`narration_end` when every active segment carries one, otherwise the sum
of `audio_duration + pause_duration`; `0.0` when no segment is active. -/
def getNarrationDuration (script : List Segment) : ℚ :=
  let active := script.filter (fun s => !s.isDeleted)
  match active with
  | [] => 0
  | h :: t =>
    if (h :: t).all (fun s => s.narration_end.isSome) then
      (t.map (fun s => optQ s.narration_end)).foldl max (optQ h.narration_end)
    else
      ((h :: t).map (fun s => optQ s.audio_duration + optQ s.pause_duration)).sum

/-! ## Timeline Resolver (`resolve_timeline`)

The pure timing core: the resolver walks the `(nominal timestamp, audio
duration)` pairs in order keeping `next_available` (initially 0) with a
fixed `gap = 0.3`; `start = max(nominal, next_available)`,
`end = start + duration`, `next_available = end + gap`. -/
def resolveSchedule (next : ℚ) : List (ℚ × ℚ) → List (ℚ × ℚ)
  | [] => []
  | (t, d) :: rest =>
    let st := max t next
    (st, st + d) :: resolveSchedule (st + d + 3/10) rest

/-- The timestamp-rewriting part of `resolve_timeline`: when `start_time >
original_start` (a collision) the segment's displayed timestamp is
rewritten via `_seconds_to_timestamp` ∘ `_timestamp_to_seconds`, which
quantizes to hundredths of a second (`round2`); otherwise it is kept. -/
def resolveRewrite (next : ℚ) : List (ℚ × ℚ) → List ℚ
  | [] => []
  | (t, d) :: rest =>
    let st := max t next
    (if t < st then round2 st else t) :: resolveRewrite (st + d + 3/10) rest

/-- The collision counter kept by `resolve_timeline`. -/
def countCollisions (next : ℚ) : List (ℚ × ℚ) → ℕ
  | [] => 0
  | (t, d) :: rest =>
    let st := max t next
    (if t < st then 1 else 0) + countCollisions (st + d + 3/10) rest

/-! ## Interval Algebra (`merge_intervals`, `VideoService`)

Python's `sorted` on pairs orders lexicographically; the merge keeps a
growing `merged` list and widens its last element whenever the next start
is within `gap` of the last end. -/
def lexLe (a b : ℚ × ℚ) : Prop := a.1 < b.1 ∨ (a.1 = b.1 ∧ a.2 ≤ b.2)

instance : DecidableRel lexLe := fun a b => by unfold lexLe; infer_instance

instance : IsTotal (ℚ × ℚ) lexLe where
  total a b := by
    unfold lexLe
    rcases lt_trichotomy a.1 b.1 with h | h | h
    · exact Or.inl (Or.inl h)
    · rcases le_total a.2 b.2 with h2 | h2
      · exact Or.inl (Or.inr ⟨h, h2⟩)
      · exact Or.inr (Or.inr ⟨h.symm, h2⟩)
    · exact Or.inr (Or.inl h)

instance : IsTrans (ℚ × ℚ) lexLe where
  trans a b c hab hbc := by
    unfold lexLe at *
    rcases hab with h1 | ⟨h1, h1'⟩ <;> rcases hbc with h2 | ⟨h2, h2'⟩
    · exact Or.inl (h1.trans h2)
    · exact Or.inl (h2 ▸ h1)
    · exact Or.inl (h1 ▸ h2)
    · exact Or.inr ⟨h1.trans h2, h1'.trans h2'⟩

/-- `sorted(intervals)` on a list of pairs. -/
def sortIntervals (l : List (ℚ × ℚ)) : List (ℚ × ℚ) := l.insertionSort lexLe

/-- The merging loop of `merge_intervals`: `cur` is the last element of
the `merged` list (the only one the loop can still change). -/
def mergeLoop (g : ℚ) : ℚ × ℚ → List (ℚ × ℚ) → List (ℚ × ℚ)
  | cur, [] => [cur]
  | cur, (s, e) :: rest =>
    if s ≤ cur.2 + g then mergeLoop g (cur.1, max cur.2 e) rest
    else cur :: mergeLoop g (s, e) rest

/-- The loop of `merge_intervals` on an already-sorted list: an empty
input yields an empty output, otherwise the first interval seeds the
`merged` list. -/
def mergeAll (g : ℚ) : List (ℚ × ℚ) → List (ℚ × ℚ)
  | [] => []
  | x :: xs => mergeLoop g x xs

/-- `merge_intervals(intervals, gap)` (default `gap = 0.05`). -/
def mergeIntervals (l : List (ℚ × ℚ)) (g : ℚ) : List (ℚ × ℚ) :=
  mergeAll g (sortIntervals l)

/-- Membership of a point in the union of a list of (closed) ranges. -/
def memRanges (x : ℚ) (l : List (ℚ × ℚ)) : Prop := ∃ p ∈ l, p.1 ≤ x ∧ x ≤ p.2

instance (x : ℚ) (l : List (ℚ × ℚ)) : Decidable (memRanges x l) := by
  unfold memRanges; infer_instance

/-- Every range is well-formed: start ≤ end. -/
def wfRanges (l : List (ℚ × ℚ)) : Prop := ∀ p ∈ l, p.1 ≤ p.2

instance (l : List (ℚ × ℚ)) : Decidable (wfRanges l) := by
  unfold wfRanges; infer_instance

/-! ## Segment Assembler core (`assemble_steps`)

The pure planning core of steps 3 and 4 of `assemble_steps`: computing
the garbage-free sub-windows of a segment's visual window, and the greedy
cut plan bounded by the audio duration. -/

/-- Step 3 of `assemble_steps`: walk the sorted garbage ranges keeping
`last_pos` (initially the window start), emitting the clean sub-windows
of `[startT, endW)`. -/
def validRangesGo (startT endW : ℚ) (lastPos : ℚ) : List (ℚ × ℚ) → List (ℚ × ℚ)
  | [] => if lastPos < endW then [(lastPos, endW)] else []
  | (gs, ge) :: rest =>
    if ge ≤ startT then validRangesGo startT endW lastPos rest
    else if endW ≤ gs then (if lastPos < endW then [(lastPos, endW)] else [])
    else
      (if lastPos < gs then [(lastPos, gs)] else []) ++
        validRangesGo startT endW (max lastPos ge) rest

def validRanges (startT endW : ℚ) (garbage : List (ℚ × ℚ)) : List (ℚ × ℚ) :=
  validRangesGo startT endW startT (sortIntervals garbage)

/-- Step 4 of `assemble_steps`: greedily cut `(start, length)` sub-clips
from the valid ranges until the accumulated visual duration reaches the
audio duration `aDur`; each cut is `min(available, needed)` and cuts
shorter than 0.05s are skipped. -/
def cutPlanGo (aDur : ℚ) (cur : ℚ) : List (ℚ × ℚ) → List (ℚ × ℚ)
  | [] => []
  | (vs, ve) :: rest =>
    if aDur ≤ cur then []
    else
      let needed := aDur - cur
      let available := ve - vs
      let actual := min available needed
      if actual < 1/20 then cutPlanGo aDur cur rest
      else (vs, actual) :: cutPlanGo aDur (cur + actual) rest

def cutPlan (aDur : ℚ) (ranges : List (ℚ × ℚ)) : List (ℚ × ℚ) :=
  cutPlanGo aDur 0 ranges

/-! ## Surgical Rebuilder (`SyncTimelineUseCase`)

`_process_segments` produces one item per script segment, in order, each
carrying the resolved local audio file and its probed duration. -/
structure AudioItem where
  itemId : ℕ
  localPath : String
  duration : ℚ
  segment : Segment
  deriving DecidableEq, Repr

/-- An entry of the concatenation list built by
`_rebuild_and_export_timeline`: a segment's audio file, or a generated
silence clip of the given pause duration. -/
inductive ConcatEntry
  | fileClip (path : String)
  | silenceClip (pause : ℚ)
  deriving DecidableEq, Repr

/-- `seg.get("pause_duration", gap)` with the rebuilder's `gap = 0.5`. -/
def pauseOf (s : Segment) : ℚ := s.pause_duration.getD (1/2)

/-- The per-item segment update performed by the rebuild loop at cursor
`t`: `start_time = round(t, 3)`, `new_dur = round(duration, 3)`,
`end_time = round(t + new_dur, 3)`, plus the observability fields
`audio_delta = round(new_dur - orig_dur, 3)` and `timeline_shift =
round(start_time - orig_start, 3)`. -/
def rebuiltSeg (t : ℚ) (item : AudioItem) : Segment :=
  let seg := item.segment
  let newDur := round3 item.duration
  { seg with start_time := some (round3 t), audio_duration := some newDur,
             seg_duration := some newDur, end_time := some (round3 (t + newDur)),
             audio_delta := some (round3 (newDur - optQ seg.audio_duration)),
             timeline_shift := some (round3 (round3 t - optQ seg.start_time)) }

/-- The rebuild loop of `_rebuild_and_export_timeline`: walks the items
with `current_time` (initially 0); for every item but the last a silence
clip of the segment's pause duration is generated and appended after the
segment's audio file, and `current_time` advances to `end_time + pause`;
for the last item `current_time` becomes `end_time`.  Returns the updated
segments, the concat list and the final `current_time`. -/
def rebuildGo (t : ℚ) : List AudioItem → List Segment × List ConcatEntry × ℚ
  | [] => ([], [], t)
  | item :: rest =>
    let seg1 := rebuiltSeg t item
    let en := round3 (t + round3 item.duration)
    match rest with
    | [] => ([seg1], [ConcatEntry.fileClip item.localPath], en)
    | r :: rs =>
      let pause := pauseOf item.segment
      let seg2 : Segment := { seg1 with pause_duration := some pause }
      let (segs, entries, ct) := rebuildGo (en + pause) (r :: rs)
      (seg2 :: segs,
       ConcatEntry.fileClip item.localPath :: ConcatEntry.silenceClip pause :: entries,
       ct)

/-- `_rebuild_and_export_timeline`'s timing result: the rebuilt script,
the concat list, and `total_duration = round(current_time, 3)`. -/
def rebuildTimeline (items : List AudioItem) : List Segment × List ConcatEntry × ℚ :=
  let (segs, entries, ct) := rebuildGo 0 items
  (segs, entries, round3 ct)

/-! ## Persisting (`_persist_updates`)

Before touching the video record, `_persist_updates` re-uploads the
edited segments' artifacts (setting their `audio_url`), then enforces the
hard invariant `abs(total_duration - script[-1]["end_time"]) <= 0.01` on a
non-empty script: a violation raises `RuntimeError("Timeline Invariant
Broken ...")` before `video_repo.update` runs, so the record is only
written in the success branch. -/
structure VideoData where
  script : List Segment
  processed_audio_url : Option String
  vid_duration : Option ℚ
  deriving DecidableEq, Repr

/-- The `audio_url` rewrite performed on edited segments before the
invariant check (`updatedUrls` maps an edited segment id to its freshly
uploaded artifact URL). -/
def applyUrls (updatedUrls : ℕ → Option String) (script : List Segment) : List Segment :=
  script.map (fun s =>
    match updatedUrls s.sid with
    | some u => { s with audio_url := some u }
    | none => s)

/-- `_persist_updates`: `Except.error` models the raised
`RuntimeError` (the video record is untouched in that case); `Except.ok`
carries the `updated_data` written by `video_repo.update`. -/
def persistUpdates (updatedUrls : ℕ → Option String) (script : List Segment)
    (finalUrl : String) (total : ℚ) (db : VideoData) : Except String VideoData :=
  let script1 := applyUrls updatedUrls script
  if script1 ≠ [] ∧ 1/100 < |total - optQ ((script1.getLast?.map Segment.end_time).getD none)| then
    Except.error "Timeline Invariant Broken"
  else
    Except.ok { db with script := script1, processed_audio_url := some finalUrl,
                        vid_duration := some total }

/-! ## Temporary-workspace lifetime

A micro model of the temp-directory discipline: the state is the list of
live temporary directories; each routine allocates its directory with
`tempfile.mkdtemp` and its `finally` block (or `__exit__`) decides
whether the directory survives.  The body outcome is abstract — it covers
every exit path (success or exception) of the `try` block. -/

/-- `VideoService.export_segments`: `tmp = tempfile.mkdtemp(prefix="trim_")`,
then `try: ... finally: pass` — the directory is left alive on every exit
path (the source comments that cleanup is skipped for debugging). -/
def exportSegmentsFS (bodyResult : Except String Unit) (fs : List String) :
    Except String Unit × List String :=
  (bodyResult, "trim_tmp" :: fs)

/-- `VideoService.assemble_steps`: `tmp = tempfile.mkdtemp(prefix="steps_")`,
then `try: ... finally: shutil.rmtree(tmp, ignore_errors=True)` — the
directory is removed on every exit path. -/
def assembleStepsFS (bodyResult : Except String Unit) (fs : List String) :
    Except String Unit × List String :=
  (bodyResult, ("steps_tmp" :: fs).erase "steps_tmp")

/-- `LocalWorkspace` used as a context manager: `__enter__` runs
`tempfile.mkdtemp`, `__exit__` runs `shutil.rmtree` when the path exists —
`__exit__` runs on every exit path of the `with` block. -/
def localWorkspaceFS (bodyResult : Except String Unit) (fs : List String) :
    Except String Unit × List String :=
  (bodyResult, ("ws_tmp" :: fs).erase "ws_tmp")

/-- A segment with its two narration-timeline fields cleared; used to say
that a pass wrote nothing but those two fields. -/
def sansNarr (s : Segment) : Segment :=
  { s with narration_start := none, narration_end := none }

/-- The sequential-rebuild timeline as the spec words it (claim C4):
`startTime_i = cursor`, `endTime_i = cursor + measuredDuration_i`, and the
cursor advances past the segment's pause before the next segment. -/
def specRebuildTimes (c : ℚ) : List AudioItem → List (ℚ × ℚ)
  | [] => []
  | [it] => [(c, c + it.duration)]
  | it :: r :: rs =>
    (c, c + it.duration) :: specRebuildTimes (c + it.duration + pauseOf it.segment) (r :: rs)

/-- The concatenation list as the spec words it: every segment's audio
clip, with a silence clip of that segment's pause duration between every
pair of consecutive segments. -/
def specConcatList : List AudioItem → List ConcatEntry
  | [] => []
  | [it] => [ConcatEntry.fileClip it.localPath]
  | it :: r :: rs =>
    ConcatEntry.fileClip it.localPath :: ConcatEntry.silenceClip (pauseOf it.segment) ::
      specConcatList (r :: rs)

/-- Concrete script for claim C3: a kept segment, a deleted segment and a
kept segment, each of audio duration 1s and no pause. -/
def exC3 : List Segment := [mkSeg 0 0 1 0 false, mkSeg 1 0 1 0 true, mkSeg 2 0 1 0 false]

/-! # Theorems -/

theorem round3_intMul (n : ℤ) : round3 ((n : ℚ) / 1000) = (n : ℚ) / 1000 := by
  unfold round3
  have h : (1000 : ℚ) * ((n : ℚ) / 1000) = (n : ℚ) := by ring
  rw [h, round_intCast]

theorem isMilli_iff (q : ℚ) : isMilli q ↔ ∃ n : ℤ, q = (n : ℚ) / 1000 := by
  constructor
  · intro h
    exact ⟨round (1000 * q), h.symm⟩
  · rintro ⟨n, rfl⟩
    exact round3_intMul n

theorem isMilli_add {a b : ℚ} (ha : isMilli a) (hb : isMilli b) : isMilli (a + b) := by
  rcases (isMilli_iff a).mp ha with ⟨m, rfl⟩
  rcases (isMilli_iff b).mp hb with ⟨n, rfl⟩
  have h : (m : ℚ) / 1000 + (n : ℚ) / 1000 = ((m + n : ℤ) : ℚ) / 1000 := by
    push_cast; ring
  rw [h]
  exact round3_intMul (m + n)

theorem round3_idem (q : ℚ) : round3 (round3 q) = round3 q :=
  round3_intMul (round (1000 * q))

theorem isMilli_round3 (q : ℚ) : isMilli (round3 q) := round3_idem q

theorem round3_zero : round3 0 = 0 := by
  unfold round3; norm_num

theorem round3_mono {a b : ℚ} (h : a ≤ b) : round3 a ≤ round3 b := by
  unfold round3
  have h2 : round ((1000 : ℚ) * a) ≤ round ((1000 : ℚ) * b) := by
    rw [round_eq, round_eq]
    exact Int.floor_le_floor (by linarith)
  have h3 : ((round ((1000 : ℚ) * a) : ℤ) : ℚ) ≤ ((round ((1000 : ℚ) * b) : ℤ) : ℚ) := by
    exact_mod_cast h2
  linarith

/-! ## C7: timestamp parsing -/

/-- C7 counterexample: the claim says an `HH:MM:SS` string parses to
`hours*3600 + minutes*60 + seconds`; on `01:02:03` (components 1, 2, 3)
the code returns `int(parts[0])*60 + float(parts[1]) = 62`, not 3723 —
the seconds component is ignored and the hours are scaled as minutes. -/
theorem c7_counterexample :
    timestampToSeconds [1, 2, 3] ≠ 1 * 3600 + 2 * 60 + 3 := by
  norm_num [timestampToSeconds]

/-- C7 amended: an `MM:SS` string parses to `minutes*60 + seconds`; a
bare number parses to itself; a 3-part `HH:MM:SS` string is parsed as
`firstComponent*60 + secondComponent`, its third component ignored (the
parser has no hours branch). -/
theorem c7_amended :
    (∀ m s : ℚ, timestampToSeconds [m, s] = m * 60 + s) ∧
    (∀ x : ℚ, timestampToSeconds [x] = x) ∧
    (∀ h m s : ℚ, timestampToSeconds [h, m, s] = h * 60 + m) := by
  refine ⟨fun m s => rfl, fun x => rfl, fun h m s => rfl⟩

/-! ## C8: temporary-workspace lifetime -/

/-- C8 counterexample: `export_segments` allocates its scoped temporary
workspace (`tempfile.mkdtemp(prefix="trim_")`, holding the intermediate
clip files) but its `finally` block is `pass`: even on the successful
exit path the directory survives, so the workspace is not removed on
every exit path of the run. -/
theorem c8_counterexample :
    (exportSegmentsFS (Except.ok ()) []).2 = ["trim_tmp"] ∧
    "trim_tmp" ∈ (exportSegmentsFS (Except.ok ()) []).2 ∧
    (exportSegmentsFS (Except.error "Command failed") []).2 = ["trim_tmp"] := by
  refine ⟨rfl, ?_, rfl⟩
  simp [exportSegmentsFS]

/-- C8 amended: the `LocalWorkspace` context manager and `assemble_steps`
remove their temporary directory on every exit path (success or
exception), and both propagate the body's outcome unchanged; but
`export_segments` leaves its temporary directory alive on every exit
path. -/
theorem c8_amended (r : Except String Unit) (fs : List String) :
    (assembleStepsFS r fs).2 = fs ∧
    (localWorkspaceFS r fs).2 = fs ∧
    (assembleStepsFS r fs).1 = r ∧
    (localWorkspaceFS r fs).1 = r ∧
    (exportSegmentsFS r fs).2 = "trim_tmp" :: fs := by
  refine ⟨?_, ?_, rfl, rfl, rfl⟩ <;>
    simp [assembleStepsFS, localWorkspaceFS]

/-! ## C6: Segment Assembler, concrete scenario -/

/-- C6: with visual window `[8, 20)`, cleanup range `[10, 15)` and audio
duration 4.0s, the valid sub-windows are `[8,10)` then `[15,20)`; the
greedy cut plan takes 2s from position 8 and 2s from position 15 —
exactly the needed 4.0s, each cut of length `min(available, needed)`, and
no cut intersects the open garbage interval `(10, 15)`. -/
theorem c6_scenario :
    validRanges 8 20 [(10, 15)] = [(8, 10), (15, 20)] ∧
    cutPlan 4 (validRanges 8 20 [(10, 15)]) = [(8, 2), (15, 2)] ∧
    ((cutPlan 4 (validRanges 8 20 [(10, 15)])).map Prod.snd).sum = 4 ∧
    (∀ c ∈ cutPlan 4 (validRanges 8 20 [(10, 15)]), c.1 + c.2 ≤ 10 ∨ 15 ≤ c.1) := by
  have h : validRanges 8 20 [(10, 15)] = [(8, 10), (15, 20)] := by
    norm_num [validRanges, validRangesGo, sortIntervals, List.insertionSort,
      List.orderedInsert]
  have h2 : cutPlan 4 (validRanges 8 20 [(10, 15)]) = [(8, 2), (15, 2)] := by
    rw [h]; norm_num [cutPlan, cutPlanGo]
  refine ⟨h, h2, ?_, ?_⟩
  · rw [h2]; norm_num
  · rw [h2]; intro c hc
    simp only [List.mem_cons, List.mem_singleton, List.not_mem_nil, or_false] at hc
    rcases hc with rfl | rfl
    · left; norm_num
    · right; norm_num

/-! ## C2, C9: Timeline Resolver -/

theorem resolveSchedule_mem_le (segs : List (ℚ × ℚ)) :
    ∀ next, (∀ p ∈ segs, 0 ≤ p.2) →
      ∀ p ∈ resolveSchedule next segs, next ≤ p.1 ∧ p.1 ≤ p.2 := by
  induction segs with
  | nil => intro next _ p hp; simp [resolveSchedule] at hp
  | cons hd tl ih =>
    intro next h p hp
    obtain ⟨t, d⟩ := hd
    have hd0 : (0 : ℚ) ≤ d := h (t, d) (List.mem_cons_self _ _)
    simp only [resolveSchedule, List.mem_cons] at hp
    rcases hp with rfl | hp
    · constructor
      · exact le_max_right t next
      · simpa using hd0
    · have htl : ∀ p ∈ tl, (0 : ℚ) ≤ p.2 := fun q hq => h q (List.mem_cons_of_mem _ hq)
      have := ih (max t next + d + 3/10) htl p hp
      refine ⟨le_trans ?_ this.1, this.2⟩
      have h1 : next ≤ max t next := le_max_right t next
      linarith

theorem resolveSchedule_pairwise (segs : List (ℚ × ℚ)) :
    ∀ next, (∀ p ∈ segs, 0 ≤ p.2) →
      List.Pairwise (fun a b => a.2 ≤ b.1) (resolveSchedule next segs) := by
  induction segs with
  | nil => intro next _; simp [resolveSchedule]
  | cons hd tl ih =>
    intro next h
    obtain ⟨t, d⟩ := hd
    have htl : ∀ p ∈ tl, (0 : ℚ) ≤ p.2 := fun q hq => h q (List.mem_cons_of_mem _ hq)
    simp only [resolveSchedule]
    refine List.Pairwise.cons ?_ (ih _ htl)
    intro b hb
    have := (resolveSchedule_mem_le tl _ htl b hb).1
    show max t next + d ≤ b.1
    linarith

theorem resolveSchedule_nominal_le (segs : List (ℚ × ℚ)) :
    ∀ next, List.Forall₂ (fun s o => s.1 ≤ o.1) segs (resolveSchedule next segs) := by
  induction segs with
  | nil => intro next; simp [resolveSchedule]
  | cons hd tl ih =>
    intro next
    obtain ⟨t, d⟩ := hd
    simp only [resolveSchedule]
    exact List.Forall₂.cons (le_max_left t next) (ih _)

/-- C2: the resolver computes `start = max(nominal, nextAvailable)`,
`end = start + audioDuration` and advances `nextAvailable` to
`end + 0.3`; consequently (durations being non-negative) every resolved
start is at least its nominal timestamp, the resolved starts are
non-decreasing, and no two resolved `[start, end)` intervals overlap
(each segment ends before the next begins). -/
theorem c2_resolver (segs : List (ℚ × ℚ)) (h : ∀ p ∈ segs, 0 ≤ p.2) :
    (∀ t d rest next, resolveSchedule next ((t, d) :: rest) =
      (max t next, max t next + d) :: resolveSchedule (max t next + d + 3/10) rest) ∧
    List.Forall₂ (fun s o => s.1 ≤ o.1) segs (resolveSchedule 0 segs) ∧
    List.Pairwise (fun a b => a.1 ≤ b.1) (resolveSchedule 0 segs) ∧
    List.Pairwise (fun a b => a.2 ≤ b.1) (resolveSchedule 0 segs) := by
  refine ⟨fun t d rest next => rfl, resolveSchedule_nominal_le segs 0, ?_,
    resolveSchedule_pairwise segs 0 h⟩
  refine (resolveSchedule_pairwise segs 0 h).imp_of_mem ?_
  intro a b ha _ hab
  have := (resolveSchedule_mem_le segs 0 h a ha).2
  linarith

/-- Witness for C2 at the spec's concrete scenario 1 (nominal starts
0, 2, 2 and durations 3, 1, 1). -/
theorem c2_witness :
    (∀ p ∈ [((0 : ℚ), (3 : ℚ)), (2, 1), (2, 1)], (0 : ℚ) ≤ p.2) ∧
    List.Pairwise (fun a b => a.2 ≤ b.1)
      (resolveSchedule 0 [((0 : ℚ), (3 : ℚ)), (2, 1), (2, 1)]) :=
  ⟨by norm_num, (c2_resolver [(0, 3), (2, 1), (2, 1)] (by norm_num)).2.2.2⟩

theorem resolveRewrite_length (segs : List (ℚ × ℚ)) :
    ∀ next, (resolveRewrite next segs).length = segs.length := by
  induction segs with
  | nil => intro next; rfl
  | cons hd tl ih =>
    intro next
    obtain ⟨t, d⟩ := hd
    simp [resolveRewrite, ih]

theorem resolveRewrite_of_no_collision (segs : List (ℚ × ℚ)) :
    ∀ next, countCollisions next segs = 0 →
      resolveRewrite next segs = segs.map Prod.fst := by
  induction segs with
  | nil => intro next _; rfl
  | cons hd tl ih =>
    intro next h
    obtain ⟨t, d⟩ := hd
    simp only [countCollisions, Nat.add_eq_zero] at h
    have hnc : ¬ t < max t next := by
      intro hlt
      simp [hlt] at h
    have hmax : max t next = t := le_antisymm (not_lt.mp hnc) (le_max_left t next)
    simp only [resolveRewrite, List.map_cons]
    rw [if_neg hnc, hmax]
    have h2 : countCollisions (t + d + 3/10) tl = 0 := by
      rcases h with ⟨_, h2⟩
      rwa [hmax] at h2
    rw [ih (t + d + 3/10) h2]

/-- C9: running the Timeline Resolver a second time on its own resolved
output (paired with the same audio durations), when that second run finds
no collisions, rewrites nothing: it produces exactly the timestamps of
the first run. -/
theorem c9_idempotent (segs : List (ℚ × ℚ))
    (h : countCollisions 0 ((resolveRewrite 0 segs).zip (segs.map Prod.snd)) = 0) :
    resolveRewrite 0 ((resolveRewrite 0 segs).zip (segs.map Prod.snd)) =
      resolveRewrite 0 segs := by
  rw [resolveRewrite_of_no_collision _ 0 h, List.map_fst_zip]
  rw [resolveRewrite_length, List.length_map]

/-- Witness for C9: first run on nominal starts 0, 2 with durations 3, 1
resolves to 0, 3.3; the second run has no collisions and reproduces
them. -/
theorem c9_witness :
    countCollisions 0
      ((resolveRewrite 0 [((0 : ℚ), (3 : ℚ)), (2, 1)]).zip
        ([((0 : ℚ), (3 : ℚ)), (2, 1)].map Prod.snd)) = 0 ∧
    resolveRewrite 0
      ((resolveRewrite 0 [((0 : ℚ), (3 : ℚ)), (2, 1)]).zip
        ([((0 : ℚ), (3 : ℚ)), (2, 1)].map Prod.snd)) =
      resolveRewrite 0 [((0 : ℚ), (3 : ℚ)), (2, 1)] := by
  have hc : countCollisions 0
      ((resolveRewrite 0 [((0 : ℚ), (3 : ℚ)), (2, 1)]).zip
        ([((0 : ℚ), (3 : ℚ)), (2, 1)].map Prod.snd)) = 0 := by
    norm_num [resolveRewrite, countCollisions, round2, round_eq]
  exact ⟨hc, c9_idempotent [(0, 3), (2, 1)] hc⟩

/-! ## C10, C3: narration timeline -/

theorem computeNarrationGo_head_start (c : ℚ) (s : Segment) (rest : List Segment) :
    ∃ hd tl, computeNarrationGo c (s :: rest) = hd :: tl ∧
      hd.narration_start = some (round3 c) ∧
      hd.narration_end =
        some (round3 (c + optQ s.audio_duration + optQ s.pause_duration)) := by
  exact ⟨_, _, rfl, rfl, rfl⟩

theorem computeNarrationGo_chain (l : List Segment) :
    ∀ c, List.Chain' (fun a b => a.narration_end = b.narration_start)
      (computeNarrationGo c l) := by
  induction l with
  | nil => intro c; simp [computeNarrationGo]
  | cons s rest ih =>
    intro c
    simp only [computeNarrationGo]
    rw [List.chain'_cons']
    refine ⟨?_, ih _⟩
    intro b hb
    cases rest with
    | nil => simp [computeNarrationGo] at hb
    | cons s2 r2 =>
      obtain ⟨hd, tl, heq, hstart, -⟩ :=
        computeNarrationGo_head_start
          (round3 (c + optQ s.audio_duration + optQ s.pause_duration)) s2 r2
      rw [heq] at hb
      simp only [List.head?_cons, Option.mem_def, Option.some.injEq] at hb
      subst hb
      rw [hstart, round3_idem]

theorem computeNarrationGo_sansNarr (l : List Segment) :
    ∀ c, (computeNarrationGo c l).map sansNarr = l.map sansNarr := by
  induction l with
  | nil => intro c; rfl
  | cons s rest ih =>
    intro c
    simp only [computeNarrationGo, List.map_cons, ih]
    rfl

theorem computeNarrationGo_isDeleted (l : List Segment) (c : ℚ) :
    (computeNarrationGo c l).map Segment.isDeleted = l.map Segment.isDeleted := by
  have h := computeNarrationGo_sansNarr l c
  have h1 : (computeNarrationGo c l).map (fun s => (sansNarr s).isDeleted) =
      l.map (fun s => (sansNarr s).isDeleted) := by
    rw [show (fun s => (sansNarr s).isDeleted) = Segment.isDeleted ∘ sansNarr from rfl,
      ← List.map_map, ← List.map_map, h]
  simpa [sansNarr] using h1

/-- C10: on every non-empty script (deleted segments included) the
narration pass starts at 0, makes `narration_end` of each segment equal
to `narration_start` of the next segment in list order, and writes
nothing but the two narration fields. -/
theorem c10_narration (script : List Segment) (h : script ≠ []) :
    (∃ hd, (computeNarrationTimeline script).head? = some hd ∧
      hd.narration_start = some 0) ∧
    List.Chain' (fun a b => a.narration_end = b.narration_start)
      (computeNarrationTimeline script) ∧
    (computeNarrationTimeline script).map sansNarr = script.map sansNarr := by
  obtain ⟨s, rest, rfl⟩ := List.exists_cons_of_ne_nil h
  refine ⟨?_, computeNarrationGo_chain _ 0, computeNarrationGo_sansNarr _ 0⟩
  obtain ⟨hd, tl, heq, hstart, -⟩ := computeNarrationGo_head_start 0 s rest
  refine ⟨hd, ?_, ?_⟩
  · simp [computeNarrationTimeline, heq]
  · rw [hstart, round3_zero]

/-- Witness for C10 on the concrete three-segment script. -/
theorem c10_witness :
    (exC3 ≠ []) ∧
    ((∃ hd, (computeNarrationTimeline exC3).head? = some hd ∧
        hd.narration_start = some 0) ∧
      List.Chain' (fun a b => a.narration_end = b.narration_start)
        (computeNarrationTimeline exC3) ∧
      (computeNarrationTimeline exC3).map sansNarr = exC3.map sansNarr) :=
  ⟨by simp [exC3], c10_narration exC3 (by simp [exC3])⟩

/-- C3 counterexample: the claim says the cumulative narration sum runs
over the non-deleted segments, with `narrationEnd[i] = narrationStart[i+1]`
for consecutive kept segments.  On a script whose middle segment is
deleted (all audio durations 1s, no pauses), the pass also advances the
cursor over the deleted segment, so the first kept segment ends at 1
while the next kept segment starts at 2. -/
theorem c3_counterexample :
    ¬ List.Chain' (fun a b => a.narration_end = b.narration_start)
      ((computeNarrationTimeline exC3).filter (fun s => !s.isDeleted)) := by
  intro h
  have hev : (computeNarrationTimeline exC3).filter (fun s => !s.isDeleted) =
      [{ mkSeg 0 0 1 0 false with narration_start := some 0, narration_end := some 1 },
       { mkSeg 2 0 1 0 false with narration_start := some 2, narration_end := some 3 }] := by
    norm_num [exC3, computeNarrationTimeline, computeNarrationGo, mkSeg, optQ,
      round3, round_eq, List.filter]
  rw [hev] at h
  have := List.chain'_cons.mp h
  simp at this

theorem computeNarrationGo_ne_isSome (l : List Segment) :
    ∀ c, ∀ s ∈ computeNarrationGo c l, s.narration_end.isSome := by
  induction l with
  | nil => intro c s hs; simp [computeNarrationGo] at hs
  | cons hd rest ih =>
    intro c s hs
    simp only [computeNarrationGo, List.mem_cons] at hs
    rcases hs with rfl | hs
    · rfl
    · exact ih _ s hs

theorem computeNarrationGo_ne_lb (l : List Segment) :
    ∀ c, (∀ s ∈ l, 0 ≤ optQ s.audio_duration + optQ s.pause_duration) →
      ∀ s ∈ computeNarrationGo c l, round3 c ≤ optQ s.narration_end := by
  induction l with
  | nil => intro c _ s hs; simp [computeNarrationGo] at hs
  | cons hd rest ih =>
    intro c h s hs
    have hd0 : 0 ≤ optQ hd.audio_duration + optQ hd.pause_duration :=
      h hd (List.mem_cons_self _ _)
    have hstep : round3 c ≤
        round3 (c + optQ hd.audio_duration + optQ hd.pause_duration) := by
      apply round3_mono; linarith
    simp only [computeNarrationGo, List.mem_cons] at hs
    rcases hs with rfl | hs
    · simpa [optQ] using hstep
    · have hrest : ∀ s ∈ rest, 0 ≤ optQ s.audio_duration + optQ s.pause_duration :=
        fun q hq => h q (List.mem_cons_of_mem _ hq)
      have := ih _ hrest s hs
      rw [round3_idem] at this
      exact le_trans hstep this

theorem computeNarrationGo_ne_pairwise (l : List Segment) :
    ∀ c, (∀ s ∈ l, 0 ≤ optQ s.audio_duration + optQ s.pause_duration) →
      List.Pairwise (fun a b => optQ a.narration_end ≤ optQ b.narration_end)
        (computeNarrationGo c l) := by
  induction l with
  | nil => intro c _; simp [computeNarrationGo]
  | cons hd rest ih =>
    intro c h
    have hrest : ∀ s ∈ rest, 0 ≤ optQ s.audio_duration + optQ s.pause_duration :=
      fun q hq => h q (List.mem_cons_of_mem _ hq)
    simp only [computeNarrationGo]
    refine List.Pairwise.cons ?_ (ih _ hrest)
    intro b hb
    have := computeNarrationGo_ne_lb rest _ hrest b hb
    rw [round3_idem] at this
    simpa [optQ] using this

theorem foldl_max_getLast? (l : List ℚ) :
    ∀ a, List.Pairwise (· ≤ ·) (a :: l) →
      some (l.foldl max a) = (a :: l).getLast? := by
  induction l with
  | nil => intro a _; rfl
  | cons b t ih =>
    intro a hp
    have hab : a ≤ b := List.rel_of_pairwise_cons hp (List.mem_cons_self _ _)
    simp only [List.foldl_cons]
    rw [max_eq_right hab, List.getLast?_cons_cons]
    exact ih b hp.of_cons

theorem getNarrationDuration_eq_of_filter (script : List Segment) (h t1 : _)
    (hact : script.filter (fun s => !s.isDeleted) = h :: t1) :
    getNarrationDuration script =
      (if (h :: t1).all (fun s => s.narration_end.isSome) then
        (t1.map (fun s => optQ s.narration_end)).foldl max (optQ h.narration_end)
      else ((h :: t1).map
        (fun s => optQ s.audio_duration + optQ s.pause_duration)).sum) := by
  unfold getNarrationDuration
  rw [hact]

/-- C3 amended: the narration pass accumulates `audioDuration +
pauseDuration` over **all** segments in list order — deleted segments
included — so `narrationEnd[i] = narrationStart[i+1]` holds for
consecutive segments in list order (not for consecutive kept segments,
as the counterexample shows); the reported total narration duration still
equals the last kept segment's `narrationEnd` whenever durations are
non-negative and some segment is kept. -/
theorem c3_amended (script : List Segment)
    (hpos : ∀ s ∈ script, 0 ≤ optQ s.audio_duration + optQ s.pause_duration)
    (hkept : script.filter (fun s => !s.isDeleted) ≠ []) :
    List.Chain' (fun a b => a.narration_end = b.narration_start)
      (computeNarrationTimeline script) ∧
    ∃ last, ((computeNarrationTimeline script).filter
        (fun s => !s.isDeleted)).getLast? = some last ∧
      getNarrationDuration (computeNarrationTimeline script) =
        optQ last.narration_end := by
  refine ⟨computeNarrationGo_chain _ 0, ?_⟩
  set out := computeNarrationTimeline script with hout
  set active := out.filter (fun s => !s.isDeleted) with hactive
  have hactne : active ≠ [] := by
    intro hnil
    apply hkept
    rw [List.filter_eq_nil_iff]
    rw [List.filter_eq_nil_iff] at hnil
    have hmap : out.map Segment.isDeleted = script.map Segment.isDeleted :=
      computeNarrationGo_isDeleted script 0
    intro a ha
    have h1 : ∀ b ∈ out.map Segment.isDeleted, ¬ (!b) = true := by
      rw [List.forall_mem_map]
      exact hnil
    rw [hmap, List.forall_mem_map] at h1
    exact h1 a ha
  obtain ⟨h0, t0, hact⟩ := List.exists_cons_of_ne_nil hactne
  have hsome : ∀ s ∈ active, s.narration_end.isSome := by
    intro s hs
    have : s ∈ out := (List.mem_filter.mp hs).1
    exact computeNarrationGo_ne_isSome script 0 s this
  have hall : (h0 :: t0).all (fun s => s.narration_end.isSome) = true := by
    rw [List.all_eq_true]
    intro s hs
    exact hsome s (hact ▸ hs)
  have hdur := getNarrationDuration_eq_of_filter out h0 t0 (hactive ▸ hact)
  rw [if_pos hall] at hdur
  have hpw : List.Pairwise (fun a b => optQ a.narration_end ≤ optQ b.narration_end)
      active :=
    List.Pairwise.sublist (List.filter_sublist out)
      (computeNarrationGo_ne_pairwise script 0 hpos)
  have hpw2 : List.Pairwise (· ≤ ·)
      (optQ h0.narration_end :: t0.map (fun s => optQ s.narration_end)) := by
    have : List.Pairwise (· ≤ ·)
        ((h0 :: t0).map (fun s => optQ s.narration_end)) := by
      rw [List.pairwise_map]
      exact hact ▸ hpw
    simpa using this
  have hfold := foldl_max_getLast? (t0.map (fun s => optQ s.narration_end))
    (optQ h0.narration_end) hpw2
  have hlast : ((h0 :: t0).map (fun s => optQ s.narration_end)).getLast? =
      Option.map (fun s => optQ s.narration_end) (h0 :: t0).getLast? :=
    List.getLast?_map _ _
  obtain ⟨last, hlasteq⟩ : ∃ last, (h0 :: t0).getLast? = some last := by
    have : (h0 :: t0).getLast?.isSome = true := by
      rw [List.getLast?_isSome]; exact List.cons_ne_nil _ _
    exact Option.isSome_iff_exists.mp this
  refine ⟨last, by rw [hact, hlasteq], ?_⟩
  rw [hdur]
  have : some ((t0.map (fun s => optQ s.narration_end)).foldl max
      (optQ h0.narration_end)) = some (optQ last.narration_end) := by
    rw [hfold]
    have hmap2 : ((h0 :: t0).map (fun s => optQ s.narration_end)).getLast? =
        some (optQ last.narration_end) := by
      rw [hlast, hlasteq]; rfl
    simpa using hmap2
  exact Option.some_inj.mp this

/-- Witness for C3 (amended) on the concrete three-segment script with a
deleted middle segment. -/
theorem c3_witness :
    (∀ s ∈ exC3, 0 ≤ optQ s.audio_duration + optQ s.pause_duration) ∧
    (exC3.filter (fun s => !s.isDeleted) ≠ []) ∧
    (List.Chain' (fun a b => a.narration_end = b.narration_start)
      (computeNarrationTimeline exC3) ∧
    ∃ last, ((computeNarrationTimeline exC3).filter
        (fun s => !s.isDeleted)).getLast? = some last ∧
      getNarrationDuration (computeNarrationTimeline exC3) =
        optQ last.narration_end) :=
  ⟨by simp [exC3, mkSeg, optQ], by simp [exC3, mkSeg],
    c3_amended exC3 (by simp [exC3, mkSeg, optQ]) (by simp [exC3, mkSeg])⟩

/-! ## C5: interval merging -/

theorem sortIntervals_perm (l : List (ℚ × ℚ)) : (sortIntervals l).Perm l :=
  List.perm_insertionSort lexLe l

theorem sortIntervals_starts (l : List (ℚ × ℚ)) :
    List.Pairwise (fun a b : ℚ × ℚ => a.1 ≤ b.1) (sortIntervals l) := by
  refine (List.sorted_insertionSort lexLe l).imp ?_
  intro a b hab
  rcases hab with h | ⟨h, -⟩
  · exact le_of_lt h
  · exact le_of_eq h

theorem memRanges_perm {l l' : List (ℚ × ℚ)} (h : l.Perm l') (x : ℚ) :
    memRanges x l ↔ memRanges x l' := by
  unfold memRanges
  exact ⟨fun ⟨p, hp, h2⟩ => ⟨p, h.mem_iff.mp hp, h2⟩,
    fun ⟨p, hp, h2⟩ => ⟨p, h.mem_iff.mpr hp, h2⟩⟩

theorem memRanges_cons {x : ℚ} {a : ℚ × ℚ} {l : List (ℚ × ℚ)}
    (h : memRanges x l) : memRanges x (a :: l) := by
  obtain ⟨p, hp, h2⟩ := h
  exact ⟨p, List.mem_cons_of_mem _ hp, h2⟩

theorem wfRanges_sort {l : List (ℚ × ℚ)} (h : wfRanges l) :
    wfRanges (sortIntervals l) :=
  fun p hp => h p ((sortIntervals_perm l).mem_iff.mp hp)

theorem mergeLoop_head (g : ℚ) (l : List (ℚ × ℚ)) :
    ∀ cur, ∃ b tl, mergeLoop g cur l = (cur.1, b) :: tl ∧ cur.2 ≤ b := by
  induction l with
  | nil => intro cur; exact ⟨cur.2, [], rfl, le_refl _⟩
  | cons hd rest ih =>
    intro cur
    obtain ⟨s, e⟩ := hd
    by_cases hc : s ≤ cur.2 + g
    · simp only [mergeLoop, if_pos hc]
      obtain ⟨b, tl, heq, hle⟩ := ih (cur.1, max cur.2 e)
      exact ⟨b, tl, heq, le_trans (le_max_left _ _) hle⟩
    · simp only [mergeLoop, if_neg hc]
      exact ⟨cur.2, mergeLoop g (s, e) rest, rfl, le_refl _⟩

theorem mergeLoop_chain (g : ℚ) (l : List (ℚ × ℚ)) :
    ∀ cur, List.Chain' (fun a b : ℚ × ℚ => a.2 + g < b.1) (mergeLoop g cur l) := by
  induction l with
  | nil => intro cur; simp [mergeLoop]
  | cons hd rest ih =>
    intro cur
    obtain ⟨s, e⟩ := hd
    by_cases hc : s ≤ cur.2 + g
    · simp only [mergeLoop, if_pos hc]
      exact ih _
    · simp only [mergeLoop, if_neg hc]
      rw [List.chain'_cons']
      refine ⟨?_, ih _⟩
      intro b hb
      obtain ⟨b2, tl, heq, -⟩ := mergeLoop_head g rest (s, e)
      rw [heq] at hb
      simp only [List.head?_cons, Option.mem_def, Option.some.injEq] at hb
      subst hb
      exact lt_of_not_le hc

theorem mergeLoop_wf (g : ℚ) (l : List (ℚ × ℚ)) :
    ∀ cur : ℚ × ℚ, cur.1 ≤ cur.2 → wfRanges l → wfRanges (mergeLoop g cur l) := by
  induction l with
  | nil =>
    intro cur hcur _ p hp
    simp only [mergeLoop, List.mem_singleton] at hp
    subst hp; exact hcur
  | cons hd rest ih =>
    intro cur hcur hl
    obtain ⟨s, e⟩ := hd
    have hse : s ≤ e := hl (s, e) (List.mem_cons_self _ _)
    have hrest : wfRanges rest := fun q hq => hl q (List.mem_cons_of_mem _ hq)
    by_cases hc : s ≤ cur.2 + g
    · simp only [mergeLoop, if_pos hc]
      exact ih (cur.1, max cur.2 e) (le_trans hcur (le_max_left _ _)) hrest
    · simp only [mergeLoop, if_neg hc]
      intro p hp
      rcases List.mem_cons.mp hp with rfl | hp
      · exact hcur
      · exact ih (s, e) hse hrest p hp

theorem mergeLoop_union_sup (g : ℚ) (l : List (ℚ × ℚ)) :
    ∀ cur, List.Pairwise (fun a b : ℚ × ℚ => a.1 ≤ b.1) (cur :: l) →
      ∀ x, memRanges x (cur :: l) → memRanges x (mergeLoop g cur l) := by
  induction l with
  | nil => intro cur _ x hx; simpa [mergeLoop] using hx
  | cons hd rest ih =>
    intro cur hp x hx
    obtain ⟨s, e⟩ := hd
    have hcs : cur.1 ≤ s := List.rel_of_pairwise_cons hp (List.mem_cons_self _ _)
    by_cases hc : s ≤ cur.2 + g
    · simp only [mergeLoop, if_pos hc]
      have hp' : List.Pairwise (fun a b : ℚ × ℚ => a.1 ≤ b.1)
          ((cur.1, max cur.2 e) :: rest) := by
        refine List.Pairwise.cons ?_ hp.of_cons.of_cons
        intro b hb
        exact List.rel_of_pairwise_cons hp (List.mem_cons_of_mem _ hb)
      refine ih (cur.1, max cur.2 e) hp' x ?_
      obtain ⟨p, hmem, hpx⟩ := hx
      rcases List.mem_cons.mp hmem with hpe | hmem2
      · rw [hpe] at hpx
        exact ⟨(cur.1, max cur.2 e), List.mem_cons_self _ _,
          hpx.1, le_trans hpx.2 (le_max_left _ _)⟩
      rcases List.mem_cons.mp hmem2 with hpe | hmem3
      · rw [hpe] at hpx
        exact ⟨(cur.1, max cur.2 e), List.mem_cons_self _ _,
          le_trans hcs hpx.1, le_trans hpx.2 (le_max_right _ _)⟩
      · exact ⟨p, List.mem_cons_of_mem _ hmem3, hpx⟩
    · simp only [mergeLoop, if_neg hc]
      obtain ⟨p, hmem, hpx⟩ := hx
      rcases List.mem_cons.mp hmem with rfl | hmem2
      · exact ⟨p, List.mem_cons_self _ _, hpx⟩
      · exact memRanges_cons (ih (s, e) hp.of_cons x ⟨p, hmem2, hpx⟩)

theorem mergeLoop_union_sub (g : ℚ) (hg : 0 ≤ g) (l : List (ℚ × ℚ)) :
    ∀ cur, List.Chain' (fun a b : ℚ × ℚ => b.1 ≤ a.2) (cur :: l) →
      ∀ x, memRanges x (mergeLoop g cur l) → memRanges x (cur :: l) := by
  induction l with
  | nil => intro cur _ x hx; simpa [mergeLoop] using hx
  | cons hd rest ih =>
    intro cur hch x hx
    obtain ⟨s, e⟩ := hd
    have hsc : s ≤ cur.2 := (List.chain'_cons.mp hch).1
    have hch2 : List.Chain' (fun a b : ℚ × ℚ => b.1 ≤ a.2) ((s, e) :: rest) :=
      (List.chain'_cons.mp hch).2
    have hc : s ≤ cur.2 + g := le_trans hsc (by linarith)
    rw [mergeLoop, if_pos hc] at hx
    have hch' : List.Chain' (fun a b : ℚ × ℚ => b.1 ≤ a.2)
        ((cur.1, max cur.2 e) :: rest) := by
      rw [List.chain'_cons']
      refine ⟨?_, hch2.tail⟩
      intro b hb
      have := (List.chain'_cons'.mp hch2).1 b hb
      exact le_trans this (le_max_right _ _)
    have hx' := ih (cur.1, max cur.2 e) hch' x hx
    obtain ⟨p, hmem, hpx⟩ := hx'
    rcases List.mem_cons.mp hmem with rfl | hmem2
    · by_cases hxc : x ≤ cur.2
      · exact ⟨cur, List.mem_cons_self _ _, hpx.1, hxc⟩
      · push_neg at hxc
        have hxe : x ≤ e := by
          rcases max_cases cur.2 e with ⟨hm, -⟩ | ⟨hm, -⟩
          · rw [hm] at hpx; linarith [hpx.2]
          · rw [hm] at hpx; exact hpx.2
        exact ⟨(s, e), List.mem_cons_of_mem _ (List.mem_cons_self _ _),
          by linarith, hxe⟩
    · exact memRanges_cons (memRanges_cons ⟨p, hmem2, hpx⟩)

/-- C5 counterexample: the ranges `[0,1]` and `[1.01,2]` are adjacent
within the default gap tolerance `0.05` (`1.01 ≤ 1 + 0.05`), yet merging
them yields `[0,2]`, whose union strictly contains the union of the
inputs: the point `1.005` lies in the merged range but in neither input
range — so the output union does not equal the input union. -/
theorem c5_counterexample :
    ((101 : ℚ)/100 ≤ 1 + 1/20) ∧
    mergeIntervals [((0 : ℚ), (1 : ℚ)), (101/100, 2)] (1/20) = [(0, 2)] ∧
    memRanges (201/200) (mergeIntervals [((0 : ℚ), (1 : ℚ)), (101/100, 2)] (1/20)) ∧
    ¬ memRanges (201/200) [((0 : ℚ), (1 : ℚ)), (101/100, 2)] := by
  have hm : mergeIntervals [((0 : ℚ), (1 : ℚ)), (101/100, 2)] (1/20) = [(0, 2)] := by
    norm_num [mergeIntervals, mergeAll, sortIntervals, List.insertionSort,
      List.orderedInsert, lexLe, mergeLoop]
  refine ⟨by norm_num, hm, ?_, ?_⟩
  · rw [hm]
    exact ⟨(0, 2), List.mem_singleton_self _, by norm_num, by norm_num⟩
  · rintro ⟨p, hp, h1, h2⟩
    rcases List.mem_cons.mp hp with rfl | hp2
    · norm_num at h2
    · rcases List.mem_singleton.mp hp2 with rfl
      norm_num at h1

/-- C5 amended: `mergeIntervals` sorts by start and merges whenever
`next.start ≤ current.end + gapTolerance`; empty input yields empty
output; for well-formed ranges and a non-negative tolerance the output is
disjoint and ascending (each range ends strictly before the next starts)
and its union contains the union of the inputs; and the output union
**equals** the input union when the sorted input ranges actually overlap
or touch (each next start is at most the previous end) — merging ranges
separated by a positive gap within the tolerance additionally covers that
gap, as the counterexample shows. -/
theorem c5_amended (l : List (ℚ × ℚ)) (g : ℚ) (hg : 0 ≤ g) (hwf : wfRanges l) :
    mergeIntervals [] g = [] ∧
    List.Chain' (fun a b : ℚ × ℚ => a.2 < b.1) (mergeIntervals l g) ∧
    wfRanges (mergeIntervals l g) ∧
    (∀ x, memRanges x l → memRanges x (mergeIntervals l g)) ∧
    (List.Chain' (fun a b : ℚ × ℚ => b.1 ≤ a.2) (sortIntervals l) →
      ∀ x, memRanges x (mergeIntervals l g) ↔ memRanges x l) := by
  have hperm := sortIntervals_perm l
  have hwfs := wfRanges_sort hwf
  have hstarts := sortIntervals_starts l
  refine ⟨rfl, ?_, ?_, ?_, ?_⟩
  · rcases hs : sortIntervals l with - | ⟨x, xs⟩
    · simp [mergeIntervals, mergeAll, hs]
    · rw [mergeIntervals, hs]
      simp only [mergeAll]
      refine (mergeLoop_chain g xs x).imp ?_
      intro a b hab
      linarith
  · rcases hs : sortIntervals l with - | ⟨x, xs⟩
    · rw [mergeIntervals, hs]
      intro p hp
      simp [mergeAll] at hp
    · rw [mergeIntervals, hs]
      simp only [mergeAll]
      rw [hs] at hwfs
      exact mergeLoop_wf g xs x (hwfs x (List.mem_cons_self _ _))
        (fun q hq => hwfs q (List.mem_cons_of_mem _ hq))
  · intro x hx
    have hx2 : memRanges x (sortIntervals l) := (memRanges_perm hperm x).mpr hx
    rcases hs : sortIntervals l with - | ⟨y, ys⟩
    · rw [hs] at hx2
      obtain ⟨p, hp, -⟩ := hx2
      simp at hp
    · rw [mergeIntervals, hs]
      simp only [mergeAll]
      rw [hs] at hx2 hstarts
      exact mergeLoop_union_sup g ys y hstarts x hx2
  · intro htouch x
    constructor
    · intro hx
      rcases hs : sortIntervals l with - | ⟨y, ys⟩
      · rw [mergeIntervals, hs] at hx
        obtain ⟨p, hp, -⟩ := hx
        simp [mergeAll] at hp
      · rw [mergeIntervals, hs] at hx
        simp only [mergeAll] at hx
        rw [hs] at htouch
        have := mergeLoop_union_sub g hg ys y htouch x hx
        rw [← hs] at this
        exact (memRanges_perm hperm x).mp this
    · intro hx
      have hx2 : memRanges x (sortIntervals l) := (memRanges_perm hperm x).mpr hx
      rcases hs : sortIntervals l with - | ⟨y, ys⟩
      · rw [hs] at hx2
        obtain ⟨p, hp, -⟩ := hx2
        simp at hp
      · rw [mergeIntervals, hs]
        simp only [mergeAll]
        rw [hs] at hx2 hstarts
        exact mergeLoop_union_sup g ys y hstarts x hx2

/-- Witness for C5 (amended) on two disjoint well-formed ranges and the
code's default tolerance 0.05. -/
theorem c5_witness :
    ((0 : ℚ) ≤ 1/20) ∧ wfRanges [((0 : ℚ), (1 : ℚ)), (3, 4)] ∧
    List.Chain' (fun a b : ℚ × ℚ => a.2 < b.1)
      (mergeIntervals [((0 : ℚ), (1 : ℚ)), (3, 4)] (1/20)) := by
  have hwf : wfRanges [((0 : ℚ), (1 : ℚ)), (3, 4)] := by
    intro p hp
    rcases List.mem_cons.mp hp with hpe | hp2
    · subst hpe; norm_num
    · rcases List.mem_singleton.mp hp2 with rfl
      norm_num
  exact ⟨by norm_num, hwf,
    (c5_amended [(0, 1), (3, 4)] (1/20) (by norm_num) hwf).2.1⟩

/-! ## C1, C4: Surgical Rebuilder -/

theorem rebuildGo_single (t : ℚ) (item : AudioItem) :
    rebuildGo t [item] =
      ([rebuiltSeg t item], [ConcatEntry.fileClip item.localPath],
        round3 (t + round3 item.duration)) := rfl

theorem rebuildGo_pair (t : ℚ) (item r : AudioItem) (rs : List AudioItem) :
    rebuildGo t (item :: r :: rs) =
      ({ rebuiltSeg t item with pause_duration := some (pauseOf item.segment) } ::
          (rebuildGo (round3 (t + round3 item.duration) + pauseOf item.segment)
            (r :: rs)).1,
        ConcatEntry.fileClip item.localPath ::
          ConcatEntry.silenceClip (pauseOf item.segment) ::
            (rebuildGo (round3 (t + round3 item.duration) + pauseOf item.segment)
              (r :: rs)).2.1,
        (rebuildGo (round3 (t + round3 item.duration) + pauseOf item.segment)
          (r :: rs)).2.2) := by
  rcases h : rebuildGo (round3 (t + round3 item.duration) + pauseOf item.segment)
    (r :: rs) with ⟨segs, entries, ct⟩
  simp only [rebuildGo, h]

theorem rebuildTimeline_proj (items : List AudioItem) :
    (rebuildTimeline items).1 = (rebuildGo 0 items).1 ∧
    (rebuildTimeline items).2.1 = (rebuildGo 0 items).2.1 ∧
    (rebuildTimeline items).2.2 = round3 (rebuildGo 0 items).2.2 := by
  rcases h : rebuildGo 0 items with ⟨segs, entries, ct⟩
  simp [rebuildTimeline, h]

theorem rebuildGo_last (rest : List AudioItem) :
    ∀ (item : AudioItem) (t : ℚ),
      isMilli (rebuildGo t (item :: rest)).2.2 ∧
      ∃ last, (rebuildGo t (item :: rest)).1.getLast? = some last ∧
        last.end_time = some ((rebuildGo t (item :: rest)).2.2) := by
  induction rest with
  | nil =>
    intro item t
    rw [rebuildGo_single]
    exact ⟨isMilli_round3 _, rebuiltSeg t item, rfl, rfl⟩
  | cons r rs ih =>
    intro item t
    rw [rebuildGo_pair]
    obtain ⟨hm, last, hl, he⟩ :=
      ih r (round3 (t + round3 item.duration) + pauseOf item.segment)
    refine ⟨hm, last, ?_, he⟩
    have hne : (rebuildGo (round3 (t + round3 item.duration) + pauseOf item.segment)
        (r :: rs)).1 ≠ [] := by
      intro hnil
      rw [hnil] at hl
      simp at hl
    obtain ⟨x, xs, hxe⟩ := List.exists_cons_of_ne_nil hne
    rw [hxe, List.getLast?_cons_cons, ← hxe]
    exact hl

theorem applyUrls_getLast_end (u : ℕ → Option String) (l : List Segment) :
    (applyUrls u l).getLast?.map Segment.end_time =
      l.getLast?.map Segment.end_time := by
  unfold applyUrls
  rw [List.getLast?_map]
  cases hl : l.getLast? with
  | none => rfl
  | some s =>
    simp only [Option.map_some']
    rcases hu : u s.sid <;> simp [hu]

theorem applyUrls_ne_nil (u : ℕ → Option String) {l : List Segment} (h : l ≠ []) :
    applyUrls u l ≠ [] := by
  unfold applyUrls
  simpa using h

/-- C1: after the Surgical Rebuilder's timeline rebuild on a non-empty
item list, the computed total duration equals the last segment's
`end_time` exactly (so certainly to within 0.01s), and the subsequent
persist succeeds; and whenever the persisted script violates the
invariant (`|total - lastEnd| > 0.01` on a non-empty script),
`_persist_updates` raises the fatal timeline-invariant error instead of
returning updated data, so the video record is never updated. -/
theorem c1_invariant (items : List AudioItem) (urls : ℕ → Option String)
    (finalUrl : String) (db : VideoData) (h : items ≠ []) :
    (∃ last, (rebuildTimeline items).1.getLast? = some last ∧
      last.end_time = some (rebuildTimeline items).2.2 ∧
      |(rebuildTimeline items).2.2 - optQ last.end_time| ≤ 1/100) ∧
    (∃ newDb, persistUpdates urls (rebuildTimeline items).1 finalUrl
      (rebuildTimeline items).2.2 db = Except.ok newDb) ∧
    (∀ script total, applyUrls urls script ≠ [] →
      1/100 < |total - optQ (((applyUrls urls script).getLast?.map
        Segment.end_time).getD none)| →
      persistUpdates urls script finalUrl total db =
        Except.error "Timeline Invariant Broken") := by
  obtain ⟨item, rest, rfl⟩ := List.exists_cons_of_ne_nil h
  obtain ⟨hproj1, hproj2, hproj3⟩ := rebuildTimeline_proj (item :: rest)
  obtain ⟨hm, last, hl, he⟩ := rebuildGo_last rest item 0
  have htot : (rebuildTimeline (item :: rest)).2.2 =
      (rebuildGo 0 (item :: rest)).2.2 := by
    rw [hproj3, hm]
  have hlast : (rebuildTimeline (item :: rest)).1.getLast? = some last := by
    rw [hproj1]; exact hl
  have hend : last.end_time = some ((rebuildTimeline (item :: rest)).2.2) := by
    rw [htot]; exact he
  refine ⟨⟨last, hlast, hend, ?_⟩, ?_, ?_⟩
  · rw [hend]
    simp [optQ]
  · unfold persistUpdates
    rw [if_neg]
    · exact ⟨_, rfl⟩
    rintro ⟨-, habs⟩
    rw [applyUrls_getLast_end, hlast] at habs
    simp only [Option.map_some', Option.getD_some] at habs
    rw [hend] at habs
    simp only [optQ, Option.getD_some, sub_self, abs_zero] at habs
    exact absurd habs (by norm_num)
  · intro script total hne hgt
    unfold persistUpdates
    rw [if_pos ⟨hne, hgt⟩]

/-- Witness for C1 on a single two-second item. -/
theorem c1_witness :
    ([AudioItem.mk 0 "seg0.mp3" 2 (mkSeg 0 0 0 0 false)] ≠ ([] : List AudioItem)) ∧
    (∃ last, (rebuildTimeline [AudioItem.mk 0 "seg0.mp3" 2
        (mkSeg 0 0 0 0 false)]).1.getLast? = some last ∧
      last.end_time = some (rebuildTimeline [AudioItem.mk 0 "seg0.mp3" 2
        (mkSeg 0 0 0 0 false)]).2.2 ∧
      |(rebuildTimeline [AudioItem.mk 0 "seg0.mp3" 2
        (mkSeg 0 0 0 0 false)]).2.2 - optQ last.end_time| ≤ 1/100) :=
  ⟨by simp,
    (c1_invariant [AudioItem.mk 0 "seg0.mp3" 2 (mkSeg 0 0 0 0 false)]
      (fun _ => none) "master.mp3"
      (VideoData.mk [] none none) (by simp)).1⟩

theorem rebuildGo_spec (rest : List AudioItem) :
    ∀ (item : AudioItem) (t : ℚ), isMilli t →
      (∀ it ∈ item :: rest, isMilli it.duration) →
      (∀ it ∈ item :: rest, isMilli (pauseOf it.segment)) →
      (rebuildGo t (item :: rest)).1.map
          (fun s => (optQ s.start_time, optQ s.end_time)) =
        specRebuildTimes t (item :: rest) ∧
      (rebuildGo t (item :: rest)).2.1 = specConcatList (item :: rest) := by
  induction rest with
  | nil =>
    intro item t ht hd hp
    have hdur : round3 item.duration = item.duration :=
      hd item (List.mem_cons_self _ _)
    have hen : round3 (t + round3 item.duration) = t + item.duration := by
      rw [hdur]
      exact isMilli_add ht (hd item (List.mem_cons_self _ _))
    have ht0 : round3 t = t := ht
    rw [rebuildGo_single]
    constructor
    · simp only [List.map_cons, List.map_nil, specRebuildTimes]
      simp [rebuiltSeg, optQ, ht0, hen]
    · rfl
  | cons r rs ih =>
    intro item t ht hd hp
    have hdit : isMilli item.duration := hd item (List.mem_cons_self _ _)
    have hpit : isMilli (pauseOf item.segment) := hp item (List.mem_cons_self _ _)
    have hdur : round3 item.duration = item.duration := hdit
    have hen : round3 (t + round3 item.duration) = t + item.duration := by
      rw [hdur]
      exact isMilli_add ht hdit
    have ht' : isMilli (round3 (t + round3 item.duration) + pauseOf item.segment) :=
      isMilli_add (isMilli_round3 _) hpit
    obtain ⟨ih1, ih2⟩ := ih r (round3 (t + round3 item.duration) + pauseOf item.segment)
      ht' (fun it hit => hd it (List.mem_cons_of_mem _ hit))
      (fun it hit => hp it (List.mem_cons_of_mem _ hit))
    have ht0 : round3 t = t := ht
    rw [rebuildGo_pair]
    constructor
    · simp only [List.map_cons, specRebuildTimes]
      rw [ih1, hen]
      simp [rebuiltSeg, optQ, ht0, hen]
    · simp only [specConcatList]
      rw [ih2]

/-- C4: under millisecond-granularity inputs (every probed duration and
every pause a whole number of milliseconds, which is how the code stores
them), the rebuild walks the items from cursor 0 giving segment `i`
`startTime = cursor` and `endTime = cursor + measuredDuration_i`, and the
concatenation list is exactly the segments' audio clips with a silence
clip of `pauseDuration_i` inserted between every pair of consecutive
segments, the cursor advancing past the pause. -/
theorem c4_rebuild_spec (items : List AudioItem)
    (hd : ∀ it ∈ items, isMilli it.duration)
    (hp : ∀ it ∈ items, isMilli (pauseOf it.segment)) :
    (rebuildTimeline items).1.map (fun s => (optQ s.start_time, optQ s.end_time)) =
      specRebuildTimes 0 items ∧
    (rebuildTimeline items).2.1 = specConcatList items := by
  obtain ⟨hproj1, hproj2, -⟩ := rebuildTimeline_proj items
  rw [hproj1, hproj2]
  cases items with
  | nil => exact ⟨rfl, rfl⟩
  | cons item rest =>
    exact rebuildGo_spec rest item 0 round3_zero hd hp

/-- Witness for C4 on two items with millisecond durations and pauses. -/
theorem c4_witness :
    (∀ it ∈ [AudioItem.mk 0 "a.mp3" 2 (mkSeg 0 0 0 (1/2) false),
        AudioItem.mk 1 "b.mp3" 1 (mkSeg 1 0 0 (1/2) false)], isMilli it.duration) ∧
    (∀ it ∈ [AudioItem.mk 0 "a.mp3" 2 (mkSeg 0 0 0 (1/2) false),
        AudioItem.mk 1 "b.mp3" 1 (mkSeg 1 0 0 (1/2) false)],
      isMilli (pauseOf it.segment)) ∧
    ((rebuildTimeline [AudioItem.mk 0 "a.mp3" 2 (mkSeg 0 0 0 (1/2) false),
        AudioItem.mk 1 "b.mp3" 1 (mkSeg 1 0 0 (1/2) false)]).1.map
          (fun s => (optQ s.start_time, optQ s.end_time)) =
        specRebuildTimes 0 [AudioItem.mk 0 "a.mp3" 2 (mkSeg 0 0 0 (1/2) false),
          AudioItem.mk 1 "b.mp3" 1 (mkSeg 1 0 0 (1/2) false)] ∧
      (rebuildTimeline [AudioItem.mk 0 "a.mp3" 2 (mkSeg 0 0 0 (1/2) false),
          AudioItem.mk 1 "b.mp3" 1 (mkSeg 1 0 0 (1/2) false)]).2.1 =
        specConcatList [AudioItem.mk 0 "a.mp3" 2 (mkSeg 0 0 0 (1/2) false),
          AudioItem.mk 1 "b.mp3" 1 (mkSeg 1 0 0 (1/2) false)]) := by
  have hd : ∀ it ∈ [AudioItem.mk 0 "a.mp3" 2 (mkSeg 0 0 0 (1/2) false),
      AudioItem.mk 1 "b.mp3" 1 (mkSeg 1 0 0 (1/2) false)], isMilli it.duration := by
    intro it hit
    rcases List.mem_cons.mp hit with hpe | hit2
    · rw [hpe]; norm_num [isMilli, round3, round_eq]
    · rcases List.mem_singleton.mp hit2 with rfl
      norm_num [isMilli, round3, round_eq]
  have hp : ∀ it ∈ [AudioItem.mk 0 "a.mp3" 2 (mkSeg 0 0 0 (1/2) false),
      AudioItem.mk 1 "b.mp3" 1 (mkSeg 1 0 0 (1/2) false)],
      isMilli (pauseOf it.segment) := by
    intro it hit
    rcases List.mem_cons.mp hit with hpe | hit2
    · rw [hpe]; norm_num [isMilli, round3, round_eq, pauseOf, mkSeg]
    · rcases List.mem_singleton.mp hit2 with rfl
      norm_num [isMilli, round3, round_eq, pauseOf, mkSeg]
  exact ⟨hd, hp, c4_rebuild_spec _ hd hp⟩

end VideoBackend
